import Mathlib

/-!
Verification development for the market-scanner replay engine
(`replay_runner.py`): shallow embedding of the indicator engine
(`rolling_vwap`, true range / ATR), the signal detector
(`five_min_signals`), the premarket reference calculator
(`compute_premarket_high`) and the replay driver
(`run_replay_for_date`), together with theorems settling the
specification claims.

Modelling conventions:
* floats are embedded as rationals (`ℚ`); the float literals `0.6`,
  `1.5`, `1e-9`, `100.0` of the source become the exact rationals
  `6/10`, `3/2`, `1/10^9`, `100`;
* pandas missing values (`NaN`) do not arise for rational-valued bars,
  so `dropna` is the identity; the one place the source manufactures a
  `NaN` — `replace(0, np.nan)` on the cumulative volume inside
  `rolling_vwap` — is embedded as an `Option ℚ`, `none` standing for
  `NaN`, and float comparisons against `NaN` (always `False` in the
  source) become comparisons against `none` (always false);
* a pandas `DatetimeIndex` entry is embedded as a `Ts` record carrying
  the normalized calendar date and the local hour/minute; positional
  lookup (`.loc[ts]`) coincides with index-alignment for sequences with
  pairwise-distinct timestamps, which is the domain on which the
  detector-level theorems are stated;
* fallible I/O (`yf.Ticker(...).history(...)`) is embedded as a
  function into `Except Err _`; a Python `try/except` that skips a
  symbol is embedded by matching on the `Except` value, and code *not*
  wrapped in `try` propagates the error through `Except.bind`.
-/

namespace ReplayRunner

/-- Exchange-local timestamp of a bar: normalized calendar date plus
local hour and minute of day (what `ts.hour` / `ts.minute` /
`index.normalize()` expose in the source). -/
structure Ts where
  date : ℕ
  hour : ℕ
  minute : ℕ
deriving DecidableEq, Repr

/-- Total sort key of a timestamp, used to embed `sort_index()`. -/
def tsKey (t : Ts) : ℕ :=
  (t.date * 24 + t.hour) * 60 + t.minute

/-- One OHLCV bar (a row of the 5-minute DataFrame). The Python column
`Open` is rendered `open_` because `open` is a Lean keyword. -/
structure Bar where
  ts : Ts
  open_ : ℚ
  high : ℚ
  low : ℚ
  close : ℚ
  volume : ℚ
deriving DecidableEq, Repr

/-- Event kind emitted by the detector. -/
inductive EvKind where
  | ENTRY
  | EXIT
deriving DecidableEq, Repr

/-- Reason code attached to each emitted event. -/
inductive Reason where
  | break_premarket
  | vwap_reclaim
  | vwap_loss
  | long_wick
  | atr_stop
deriving DecidableEq, Repr

/-- An emitted event, the tuple `(ts, kind, reason, price)` appended to
`events` in `five_min_signals`. -/
structure Event where
  ts : Ts
  kind : EvKind
  reason : Reason
  price : ℚ
deriving DecidableEq, Repr

/-! ## Indicator engine -/

/-- Cumulative volume through bar `i`: entry `i` of
`bars["Volume"].cumsum()`. -/
def vsum (bars : List Bar) (i : ℕ) : ℚ :=
  ((bars.take (i + 1)).map Bar.volume).sum

/-- Cumulative price×volume through bar `i`: entry `i` of
`(bars["Close"] * bars["Volume"]).cumsum()`. -/
def pvsum (bars : List Bar) (i : ℕ) : ℚ :=
  ((bars.take (i + 1)).map (fun b => b.close * b.volume)).sum

/-- Entry `i` of `(pv / v).fillna(method="ffill")` where
`v = cumsum(Volume).replace(0, nan)`: `none` models `NaN` (zero
cumulative volume with no previously defined value to forward-fill). -/
def vwapAt (bars : List Bar) : ℕ → Option ℚ
  | 0 => if vsum bars 0 = 0 then none else some (pvsum bars 0 / vsum bars 0)
  | i + 1 =>
    if vsum bars (i + 1) = 0 then vwapAt bars i
    else some (pvsum bars (i + 1) / vsum bars (i + 1))

/-- `rolling_vwap(bars)`: the VWAP series, aligned with the input. -/
def rolling_vwap (bars : List Bar) : List (Option ℚ) :=
  (List.range bars.length).map (vwapAt bars)

/-- Entry `i` of the true-range series the source actually computes.
The source line is `np.maximum(a, b, c)` with
`a = High - Low`, `b = abs(High - prev_close)`,
`c = abs(Low - prev_close)`; `np.maximum` is a *binary* ufunc whose
third positional argument is `out`, so `c` only receives the result of
`max(a, b)` and never participates as an operand.  `prev_close` is
`Close.shift(1).fillna(Open)`, i.e. the previous bar's close, and the
bar's own open for the first bar. -/
def trAt (bars : List Bar) : ℕ → ℚ
  | 0 =>
    match bars[0]? with
    | none => 0
    | some b => max (b.high - b.low) |b.high - b.open_|
  | k + 1 =>
    match bars[k + 1]?, bars[k]? with
    | none, _ => 0
    | some b, some p => max (b.high - b.low) |b.high - p.close|
    | some b, none => max (b.high - b.low) |b.high - b.open_|

/-- Modelled from the spec: the three-operand true range
`max(high − low, |high − prev_close|, |low − prev_close|)` that the
specification describes (the quantity the source *intended* with
`np.maximum(a, b, c)`). Comparator for claim C1. -/
def tr_spec_at (bars : List Bar) : ℕ → ℚ
  | 0 =>
    match bars[0]? with
    | none => 0
    | some b => max (max (b.high - b.low) |b.high - b.open_|) |b.low - b.open_|
  | k + 1 =>
    match bars[k + 1]?, bars[k]? with
    | none, _ => 0
    | some b, some p => max (max (b.high - b.low) |b.high - p.close|) |b.low - p.close|
    | some b, none => max (max (b.high - b.low) |b.high - b.open_|) |b.low - b.open_|

/-- Entry `i` of `tr.rolling(14, min_periods=1).mean()`: the mean of
the true range over the trailing window of `min 14 (i+1)` bars. With
`min_periods=1` every entry is defined, so the trailing
`fillna(method="ffill")` of the source is the identity. -/
def atrAt (bars : List Bar) (i : ℕ) : ℚ :=
  let w : ℕ := min 14 (i + 1)
  (((List.range w).map (fun d => trAt bars (i - d))).sum) / (w : ℚ)

/-- The ATR series, aligned with the input bars. -/
def rolling_atr (bars : List Bar) : List ℚ :=
  (List.range bars.length).map (atrAt bars)

/-- Modelled from the spec: ATR over the spec's three-operand true
range. Comparator for claim C1. -/
def atr_spec_at (bars : List Bar) (i : ℕ) : ℚ :=
  let w : ℕ := min 14 (i + 1)
  (((List.range w).map (fun d => tr_spec_at bars (i - d))).sum) / (w : ℚ)

/-- `detect_long_wick(row, wick_ratio=0.6)`: upper-wick ratio test with
the source's `1e-9` denominator guard. -/
def detect_long_wick (b : Bar) : Bool :=
  let body_top := max b.open_ b.close
  let upper_wick := b.high - body_top
  let total_range := b.high - b.low + 1 / 1000000000
  decide ((6 / 10 : ℚ) ≤ upper_wick / total_range)

/-! ## Signal detector -/

/-- `price > x` for an optional `x` (`False` when `x` is `NaN`/absent,
matching both the `premarket_high is not None and price > premarket_high`
guard and the float semantics of `price > NaN`). -/
def gtOpt (price : ℚ) : Option ℚ → Bool
  | some x => decide (x < price)
  | none => false

/-- `price < x` for an optional `x` (`False` when `x` is `NaN`). -/
def ltOpt (price : ℚ) : Option ℚ → Bool
  | some x => decide (price < x)
  | none => false

/-- One iteration of the `for ts, row in bars.iterrows()` loop of
`five_min_signals`: given the premarket reference, the running
`entry_price_per_t` state, the bar and its aligned VWAP/ATR values,
produce the (at most one) event appended this iteration and the updated
state. The `if ... continue` chain of the source makes the five rules
mutually exclusive in priority order. -/
def stepRow (pm : Option ℚ) (st : Option ℚ) (b : Bar) (vw : Option ℚ)
    (a : ℚ) : Option Event × Option ℚ :=
  let price := b.close
  if gtOpt price pm then
    (some ⟨b.ts, .ENTRY, .break_premarket, price⟩, some price)
  else if gtOpt price vw && decide (b.open_ < b.close) then
    (some ⟨b.ts, .ENTRY, .vwap_reclaim, price⟩, some price)
  else if ltOpt price vw then
    (some ⟨b.ts, .EXIT, .vwap_loss, price⟩, none)
  else if detect_long_wick b then
    (some ⟨b.ts, .EXIT, .long_wick, price⟩, none)
  else
    match st with
    | some e =>
      if price ≤ e - 3 / 2 * a then
        (some ⟨b.ts, .EXIT, .atr_stop, price⟩, none)
      else (none, st)
    | none => (none, st)

/-- The whole bar loop of `five_min_signals`, over rows
`(bar, (vwap, atr))` already aligned positionally. -/
def runRows (pm : Option ℚ) : Option ℚ → List (Bar × Option ℚ × ℚ) → List Event
  | _, [] => []
  | st, r :: rest =>
    match stepRow pm st r.1 r.2.1 r.2.2 with
    | (ev, st2) => ev.toList ++ runRows pm st2 rest

/-- The ordering `bars.sort_index()` sorts by. -/
def barLe (a b : Bar) : Prop := tsKey a.ts ≤ tsKey b.ts

instance : DecidableRel barLe := fun a b =>
  inferInstanceAs (Decidable (tsKey a.ts ≤ tsKey b.ts))

instance : IsTotal Bar barLe := ⟨fun a b => Nat.le_total (tsKey a.ts) (tsKey b.ts)⟩

instance : IsTrans Bar barLe := ⟨fun _ _ _ h1 h2 => Nat.le_trans h1 h2⟩

/-- `five_min_signals(bars, premarket_high)`: drop missing values (the
identity on rational-valued bars), sort by timestamp, compute the VWAP
and ATR series, then run the rule loop from `entry_price_per_t = None`.
-/
def five_min_signals (bars0 : List Bar) (pm : Option ℚ) : List Event :=
  let bars := List.insertionSort barLe bars0
  runRows pm none (bars.zip ((rolling_vwap bars).zip (rolling_atr bars)))

/-! ## Premarket reference calculator -/

/-- The premarket mask of `compute_premarket_high`: local time-of-day
strictly before `mh:mm` at minute granularity. -/
def isPremarketTs (mh mm : ℕ) (t : Ts) : Bool :=
  decide (t.hour < mh) || (decide (t.hour = mh) && decide (t.minute < mm))

/-- Maximum of a rational list, `none` on the empty list (the shape of
`pm_df["High"].max()` guarded by the two `empty` checks). -/
def listMax : List ℚ → Option ℚ
  | [] => none
  | x :: xs => some (xs.foldl max x)

/-- `compute_premarket_high(df_5m, market_open_hour, market_open_minute)`
(the source's defaults are `9` and `30`): maximum `High` over the bars
whose time-of-day is strictly before the cutoff, `None` when no bar
qualifies (which subsumes the early return on an empty frame). -/
def compute_premarket_high (df : List Bar) (mh mm : ℕ) : Option ℚ :=
  listMax ((df.filter (fun b => isPremarketTs mh mm b.ts)).map Bar.high)

/-! ## Replay driver -/

/-- Ticker symbols, abstracted to naturals. -/
abbrev Ticker := ℕ

/-- Opaque-to-the-driver error value standing for a raised exception. -/
abbrev Err := ℕ

/-- One row of the daily history frame `tk.history(period="10d",
interval="1d")`: normalized date, `Open` and `Close`. -/
structure DRow where
  date : ℕ
  open_ : ℚ
  close : ℚ
deriving DecidableEq, Repr

/-- A retained gap candidate `(t, gap_pct, prev_close, open_today)`. -/
structure GapRow where
  ticker : Ticker
  gap : ℚ
  prev_close : ℚ
  open_today : ℚ
deriving DecidableEq, Repr

/-- `gap_pct = (open_today - prev_close) / prev_close * 100.0`. -/
def gap_pct (prev_close open_today : ℚ) : ℚ :=
  (open_today - prev_close) / prev_close * 100

/-- The per-ticker body of the gap loop, `target_date` branch: find the
daily row whose date matches the target (first match, the source scans
indices upward), skip the ticker when there is no match or no previous
row, otherwise read `prev_close`/`open_today` and compute the gap. -/
def gapFor (hist : List DRow) (target : ℕ) (t : Ticker) : Option GapRow :=
  match hist.findIdx? (fun r => decide (r.date = target)) with
  | none => none
  | some 0 => none
  | some (m + 1) =>
    match hist[m]?, hist[m + 1]? with
    | some prev, some cur =>
      some ⟨t, gap_pct prev.close cur.open_, prev.close, cur.open_⟩
    | _, _ => none

/-- The gap-percent ranking phase. Each ticker's fetch-and-compute body
runs inside `try/except`, so a fetch error (`Except.error`) is caught
and the ticker is simply skipped; the phase itself never fails. -/
def gapPhase (daily : Ticker → Except Err (List DRow)) (tickers : List Ticker)
    (target : ℕ) : List GapRow :=
  tickers.filterMap (fun t =>
    match daily t with
    | .error _ => none
    | .ok hist => gapFor hist target t)

/-- Descending order on gap percent (`sorted(..., key=gap, reverse=True)`). -/
def gapGe (a b : GapRow) : Prop := b.gap ≤ a.gap

instance : DecidableRel gapGe := fun a b =>
  inferInstanceAs (Decidable (b.gap ≤ a.gap))

instance : IsTotal GapRow gapGe := ⟨fun a b => le_total b.gap a.gap⟩

instance : IsTrans GapRow gapGe := ⟨fun _ _ _ h1 h2 => le_trans h2 h1⟩

/-- `results = sorted([r for r in results if r.gap >= thr], reverse)`
then `top = results[:top_n]`. -/
def selectTop (results : List GapRow) (thr : ℚ) (n : ℕ) : List GapRow :=
  (List.insertionSort gapGe (results.filter (fun r => decide (thr ≤ r.gap)))).take n

/-- `filter_bars_for_date`: keep the bars whose normalized date equals
the target date. -/
def filter_bars_for_date (df : List Bar) (target : ℕ) : List Bar :=
  df.filter (fun b => decide (b.ts.date = target))

/-- The per-symbol replay phase (the second `for` loop of
`run_replay_for_date`). This loop has **no** `try/except`: the intraday
fetch is bound directly, so an `Except.error` propagates and aborts the
processing of every remaining ticker. Empty frames, by contrast, are
skipped gracefully (`continue`). The emitted events are collected as
`(ticker, event)` pairs, standing for the `upsert_inplay` calls. -/
def replayPhase (intra : Ticker → Except Err (List Bar)) (target : ℕ) :
    List GapRow → Except Err (List (Ticker × Event))
  | [] => .ok []
  | g :: rest =>
    match intra g.ticker with
    | .error e => .error e
    | .ok df =>
      if df.isEmpty then replayPhase intra target rest
      else
        let day_bars := filter_bars_for_date df target
        if day_bars.isEmpty then replayPhase intra target rest
        else
          let pm := compute_premarket_high df 9 30
          let events := five_min_signals day_bars pm
          match replayPhase intra target rest with
          | .error e => .error e
          | .ok restOut => .ok (events.map (fun e => (g.ticker, e)) ++ restOut)

/-- `run_replay_for_date` with an explicit target date: rank the
configured tickers by gap percent (errors caught per ticker), retain
the top `n` at or above the threshold, then replay them in ranked
order. -/
def run_replay_for_date (daily : Ticker → Except Err (List DRow))
    (intra : Ticker → Except Err (List Bar)) (tickers : List Ticker)
    (thr : ℚ) (n : ℕ) (target : ℕ) : Except Err (List (Ticker × Event)) :=
  let top := selectTop (gapPhase daily tickers target) thr n
  replayPhase intra target top

/-! ## Concrete data used by the claim theorems and witnesses -/

/-- Two bars where the second gaps far below the first bar's close:
`prev_close = 100`, then `high = 51`, `low = 49`. -/
def gapDownBars : List Bar :=
  [ ⟨⟨5, 9, 35⟩, 100, 101, 99, 100, 1⟩,
    ⟨⟨5, 9, 40⟩, 50, 51, 49, 50, 1⟩ ]

/-! ## Claim C1 -/

/-- C1: the per-bar true range of the Signal Detector is claimed to be
`max(high−low, |high−prev_close|, |low−prev_close|)`.  The code passes
the third operand as the `out` argument of the binary ufunc
`np.maximum`, so it actually computes `max(high−low, |high−prev_close|)`.
On a bar gapping down through the previous close the two differ: with
`prev_close = 100`, `high = 51`, `low = 49` the code yields
`max(2, 49) = 49` while the specified formula yields
`max(2, 49, 51) = 51`; the 14-bar rolling means diverge accordingly
(`51/2` versus `53/2` at index 1). -/
theorem claim_C1 :
    trAt gapDownBars 1 = 49 ∧ tr_spec_at gapDownBars 1 = 51 ∧
    atrAt gapDownBars 1 = 51 / 2 ∧ atr_spec_at gapDownBars 1 = 53 / 2 ∧
    trAt gapDownBars 1 ≠ tr_spec_at gapDownBars 1 := by
  have hr2 : List.range (min 14 (1 + 1)) = [0, 1] := by decide
  refine ⟨by norm_num [trAt, gapDownBars], by norm_num [tr_spec_at, gapDownBars],
    ?_, ?_, by norm_num [trAt, tr_spec_at, gapDownBars]⟩
  · rw [atrAt, hr2]
    norm_num [trAt, gapDownBars]
  · rw [atr_spec_at, hr2]
    norm_num [tr_spec_at, gapDownBars]

/-! ## Claim C7: premarket reference calculator -/

theorem foldl_max_init_le (xs : List ℚ) : ∀ a : ℚ, a ≤ xs.foldl max a := by
  induction xs with
  | nil => intro a; exact le_refl a
  | cons x t ih =>
    intro a
    exact le_trans (le_max_left a x) (ih (max a x))

theorem le_foldl_max_of_mem (xs : List ℚ) :
    ∀ a x, x ∈ xs → x ≤ xs.foldl max a := by
  induction xs with
  | nil => intro a x hx; cases hx
  | cons y t ih =>
    intro a x hx
    rcases List.mem_cons.1 hx with h | h
    · subst h
      exact le_trans (le_max_right a x) (foldl_max_init_le t (max a x))
    · exact ih (max a y) x h

theorem foldl_max_mem (xs : List ℚ) :
    ∀ a, xs.foldl max a = a ∨ xs.foldl max a ∈ xs := by
  induction xs with
  | nil => intro a; exact Or.inl rfl
  | cons y t ih =>
    intro a
    rcases ih (max a y) with h | h
    · rcases max_choice a y with hm | hm
      · exact Or.inl (by rw [List.foldl_cons, h, hm])
      · exact Or.inr (by rw [List.foldl_cons, h, hm]; exact List.mem_cons_self y t)
    · exact Or.inr (List.mem_cons_of_mem y h)

theorem listMax_eq_none_iff (l : List ℚ) : listMax l = none ↔ l = [] := by
  cases l with
  | nil => simp [listMax]
  | cons x xs => simp [listMax]

theorem listMax_spec (l : List ℚ) (m : ℚ) (h : listMax l = some m) :
    m ∈ l ∧ ∀ x ∈ l, x ≤ m := by
  cases l with
  | nil => cases h
  | cons x xs =>
    have hm : m = xs.foldl max x := by
      simpa [listMax] using h.symm
    constructor
    · rcases foldl_max_mem xs x with h2 | h2
      · rw [hm, h2]; exact List.mem_cons_self x xs
      · rw [hm]; exact List.mem_cons_of_mem x h2
    · intro y hy
      rcases List.mem_cons.1 hy with h3 | h3
      · subst h3; rw [hm]; exact foldl_max_init_le xs y
      · rw [hm]; exact le_foldl_max_of_mem xs x y h3

/-- C7: `compute_premarket_high` (with the source's default `9:30`
cutoff) is `None` exactly when no bar of the whole input — regardless
of its calendar date — has local time-of-day strictly before the
cutoff (in particular on empty input), and otherwise returns the
maximum `High` over exactly those bars.  The third conjunct identifies
the code's `(hour, minute)` test with "time-of-day strictly before
09:30" for real clock minutes. -/
theorem claim_C7 (df : List Bar) :
    (compute_premarket_high df 9 30 = none ↔
      ∀ b ∈ df, isPremarketTs 9 30 b.ts = false) ∧
    (∀ m, compute_premarket_high df 9 30 = some m →
      (∃ b ∈ df, isPremarketTs 9 30 b.ts = true ∧ b.high = m) ∧
      ∀ b ∈ df, isPremarketTs 9 30 b.ts = true → b.high ≤ m) ∧
    (∀ t : Ts, t.minute < 60 →
      (isPremarketTs 9 30 t = true ↔ 60 * t.hour + t.minute < 570)) := by
  refine ⟨?_, ?_, ?_⟩
  · rw [compute_premarket_high, listMax_eq_none_iff, List.map_eq_nil_iff,
      List.filter_eq_nil_iff]
    constructor
    · intro h b hb
      have := h b hb
      simpa using this
    · intro h b hb
      simp [h b hb]
  · intro m hm
    obtain ⟨hmem, hub⟩ := listMax_spec _ m hm
    constructor
    · obtain ⟨b, hb, hbm⟩ := List.mem_map.1 hmem
      obtain ⟨hbdf, hbpm⟩ := List.mem_filter.1 hb
      exact ⟨b, hbdf, hbpm, hbm⟩
    · intro b hbdf hbpm
      exact hub b.high (List.mem_map.2 ⟨b, List.mem_filter.2 ⟨hbdf, hbpm⟩, rfl⟩)
  · intro t hmin
    simp only [isPremarketTs, Bool.or_eq_true, Bool.and_eq_true, decide_eq_true_eq]
    omega

/-- Data for the C7 witness: one premarket bar (`9:25`, high `7`) and
one regular-session bar (`10:00`, high `9`). -/
def pmBars : List Bar :=
  [ ⟨⟨5, 9, 25⟩, 1, 7, 0, 1, 0⟩,
    ⟨⟨5, 10, 0⟩, 1, 9, 0, 1, 0⟩ ]

theorem claim_C7_witness :
    ∃ b ∈ pmBars, isPremarketTs 9 30 b.ts = true ∧ b.high = 7 :=
  ((claim_C7 pmBars).2.1 7 (by decide)).1

/-! ## Claim C6: ATR causality -/

/-- C6: ATR is causal — two bar sequences agreeing on bars `0..i`
(arbitrary data afterwards) have the same ATR at index `i`. -/
theorem claim_C6 (l1 l2 : List Bar) (i : ℕ) (h1 : i < l1.length)
    (h2 : i < l2.length) (hagree : l1.take (i + 1) = l2.take (i + 1)) :
    (rolling_atr l1)[i]? = (rolling_atr l2)[i]? := by
  have hget : ∀ j, j ≤ i → l1[j]? = l2[j]? := by
    intro j hj
    have hjlt : j < i + 1 := Nat.lt_succ_of_le hj
    have e1 : (l1.take (i + 1))[j]? = l1[j]? := by
      rw [List.getElem?_take, if_pos hjlt]
    have e2 : (l2.take (i + 1))[j]? = l2[j]? := by
      rw [List.getElem?_take, if_pos hjlt]
    rw [← e1, hagree, e2]
  have htr : ∀ j, j ≤ i → trAt l1 j = trAt l2 j := by
    intro j hj
    cases j with
    | zero => rw [trAt, trAt, hget 0 hj]
    | succ k =>
      rw [trAt, trAt, hget (k + 1) hj, hget k (Nat.le_of_succ_le hj)]
  have hatr : atrAt l1 i = atrAt l2 i := by
    rw [atrAt, atrAt]
    congr 1
    congr 1
    apply List.map_congr_left
    intro d hd
    have hdw : d < min 14 (i + 1) := List.mem_range.1 hd
    exact htr (i - d) (Nat.sub_le i d)
  rw [rolling_atr, rolling_atr, List.getElem?_map, List.getElem?_map,
    List.getElem?_range h1, List.getElem?_range h2]
  simpa using hatr

/-- A sequence agreeing with `gapDownBars` on bar 0 only. -/
def divergedBars : List Bar :=
  [ ⟨⟨5, 9, 35⟩, 100, 101, 99, 100, 1⟩,
    ⟨⟨5, 9, 40⟩, 300, 330, 290, 320, 7⟩ ]

theorem claim_C6_witness :
    (rolling_atr gapDownBars)[0]? = (rolling_atr divergedBars)[0]? :=
  claim_C6 gapDownBars divergedBars 0 (by decide) (by decide) (by decide)

/-! ## Claim C5: rolling VWAP bounds -/

theorem exists_min_mem : ∀ l : List ℚ, l ≠ [] → ∃ m ∈ l, ∀ y ∈ l, m ≤ y := by
  intro l
  induction l with
  | nil => intro h; exact absurd rfl h
  | cons x xs ih =>
    intro _
    cases xs with
    | nil =>
      exact ⟨x, List.mem_cons_self x [], by
        intro y hy
        rcases List.mem_cons.1 hy with h2 | h2
        · exact h2 ▸ le_refl x
        · cases h2⟩
    | cons z zs =>
      obtain ⟨m, hm, hub⟩ := ih (by simp)
      by_cases h : m ≤ x
      · refine ⟨m, List.mem_cons_of_mem x hm, ?_⟩
        intro y hy
        rcases List.mem_cons.1 hy with h2 | h2
        · exact h2 ▸ h
        · exact hub y h2
      · refine ⟨x, List.mem_cons_self x _, ?_⟩
        intro y hy
        rcases List.mem_cons.1 hy with h2 | h2
        · exact h2 ▸ le_refl x
        · exact le_trans (le_of_not_le h) (hub y h2)

theorem exists_max_mem : ∀ l : List ℚ, l ≠ [] → ∃ m ∈ l, ∀ y ∈ l, y ≤ m := by
  intro l
  induction l with
  | nil => intro h; exact absurd rfl h
  | cons x xs ih =>
    intro _
    cases xs with
    | nil =>
      exact ⟨x, List.mem_cons_self x [], by
        intro y hy
        rcases List.mem_cons.1 hy with h2 | h2
        · exact h2 ▸ le_refl x
        · cases h2⟩
    | cons z zs =>
      obtain ⟨m, hm, hub⟩ := ih (by simp)
      by_cases h : x ≤ m
      · refine ⟨m, List.mem_cons_of_mem x hm, ?_⟩
        intro y hy
        rcases List.mem_cons.1 hy with h2 | h2
        · exact h2 ▸ h
        · exact hub y h2
      · refine ⟨x, List.mem_cons_self x _, ?_⟩
        intro y hy
        rcases List.mem_cons.1 hy with h2 | h2
        · exact h2 ▸ le_refl x
        · exact le_trans (hub y h2) (le_of_not_le h)

theorem mul_sum_le_pvsum (m : ℚ) :
    ∀ l : List Bar, (∀ b ∈ l, m ≤ b.close ∧ 0 ≤ b.volume) →
      m * (l.map Bar.volume).sum ≤ (l.map (fun b => b.close * b.volume)).sum := by
  intro l
  induction l with
  | nil => intro _; simp
  | cons b t ih =>
    intro h
    have hb := h b (List.mem_cons_self b t)
    have ht := ih (fun c hc => h c (List.mem_cons_of_mem b hc))
    have h1 : m * b.volume ≤ b.close * b.volume :=
      mul_le_mul_of_nonneg_right hb.1 hb.2
    simp only [List.map_cons, List.sum_cons, mul_add]
    exact add_le_add h1 ht

theorem pvsum_le_mul_sum (m : ℚ) :
    ∀ l : List Bar, (∀ b ∈ l, b.close ≤ m ∧ 0 ≤ b.volume) →
      (l.map (fun b => b.close * b.volume)).sum ≤ m * (l.map Bar.volume).sum := by
  intro l
  induction l with
  | nil => intro _; simp
  | cons b t ih =>
    intro h
    have hb := h b (List.mem_cons_self b t)
    have ht := ih (fun c hc => h c (List.mem_cons_of_mem b hc))
    have h1 : b.close * b.volume ≤ m * b.volume :=
      mul_le_mul_of_nonneg_right hb.1 hb.2
    simp only [List.map_cons, List.sum_cons, mul_add]
    exact add_le_add h1 ht

theorem ratio_bounds (bars : List Bar) (i : ℕ)
    (hinv : ∀ b ∈ bars, b.low ≤ b.close ∧ b.close ≤ b.high ∧ 0 ≤ b.volume)
    (hv : vsum bars i ≠ 0) :
    (∃ b ∈ bars.take (i + 1), b.low ≤ pvsum bars i / vsum bars i) ∧
    (∃ b ∈ bars.take (i + 1), pvsum bars i / vsum bars i ≤ b.high) := by
  have hub : ∀ b ∈ bars.take (i + 1),
      b.low ≤ b.close ∧ b.close ≤ b.high ∧ 0 ≤ b.volume :=
    fun b hb => hinv b (List.mem_of_mem_take hb)
  have hvnn : 0 ≤ vsum bars i := by
    apply List.sum_nonneg
    intro x hx
    obtain ⟨b, hb, rfl⟩ := List.mem_map.1 hx
    exact (hub b hb).2.2
  have hvpos : 0 < vsum bars i := lt_of_le_of_ne hvnn (Ne.symm hv)
  have hne : bars.take (i + 1) ≠ [] := by
    intro h
    apply hv
    rw [vsum, h]
    rfl
  constructor
  · obtain ⟨m, hm, hmin⟩ :=
      exists_min_mem ((bars.take (i + 1)).map Bar.low) (by simpa using hne)
    obtain ⟨b0, hb0, hb0m⟩ := List.mem_map.1 hm
    have hmc : ∀ b ∈ bars.take (i + 1), m ≤ b.close ∧ 0 ≤ b.volume := by
      intro b hb
      exact ⟨le_trans (hmin b.low (List.mem_map_of_mem Bar.low hb)) (hub b hb).1,
        (hub b hb).2.2⟩
    have hmul := mul_sum_le_pvsum m (bars.take (i + 1)) hmc
    have hle : m ≤ pvsum bars i / vsum bars i := (le_div_iff₀ hvpos).2 hmul
    exact ⟨b0, hb0, hb0m ▸ hle⟩
  · obtain ⟨m, hm, hmax⟩ :=
      exists_max_mem ((bars.take (i + 1)).map Bar.high) (by simpa using hne)
    obtain ⟨b0, hb0, hb0m⟩ := List.mem_map.1 hm
    have hmc : ∀ b ∈ bars.take (i + 1), b.close ≤ m ∧ 0 ≤ b.volume := by
      intro b hb
      exact ⟨le_trans (hub b hb).2.1 (hmax b.high (List.mem_map_of_mem Bar.high hb)),
        (hub b hb).2.2⟩
    have hmul := pvsum_le_mul_sum m (bars.take (i + 1)) hmc
    have hle : pvsum bars i / vsum bars i ≤ m := (div_le_iff₀ hvpos).2 hmul
    exact ⟨b0, hb0, hb0m ▸ hle⟩

theorem vwapAt_bounds (bars : List Bar)
    (hinv : ∀ b ∈ bars, b.low ≤ b.close ∧ b.close ≤ b.high ∧ 0 ≤ b.volume) :
    ∀ i x, vwapAt bars i = some x →
      (∃ b ∈ bars.take (i + 1), b.low ≤ x) ∧
      (∃ b ∈ bars.take (i + 1), x ≤ b.high) := by
  intro i
  induction i with
  | zero =>
    intro x hx
    rw [vwapAt] at hx
    by_cases h : vsum bars 0 = 0
    · rw [if_pos h] at hx; cases hx
    · rw [if_neg h] at hx
      obtain rfl := Option.some.inj hx
      exact ratio_bounds bars 0 hinv h
  | succ k ih =>
    intro x hx
    rw [vwapAt] at hx
    by_cases h : vsum bars (k + 1) = 0
    · rw [if_pos h] at hx
      obtain ⟨⟨b1, hb1, hl⟩, ⟨b2, hb2, hh⟩⟩ := ih x hx
      have hsub : ∀ b, b ∈ bars.take (k + 1) → b ∈ bars.take (k + 2) := by
        intro b hb
        have he : bars.take (k + 1) = (bars.take (k + 2)).take (k + 1) := by
          rw [List.take_take]
          congr 1
          omega
        exact List.mem_of_mem_take (he ▸ hb)
      exact ⟨⟨b1, hsub b1 hb1, hl⟩, ⟨b2, hsub b2 hb2, hh⟩⟩
    · rw [if_neg h] at hx
      obtain rfl := Option.some.inj hx
      exact ratio_bounds bars (k + 1) hinv h

/-- C5: under the Bar invariants, `rolling_vwap` is aligned one-to-one
with the input, and every *defined* VWAP value at index `i` lies within
`[min(low), max(high)]` of the prefix of bars `0..i`. -/
theorem claim_C5 (bars : List Bar)
    (hinv : ∀ b ∈ bars,
      max b.open_ b.close ≤ b.high ∧ b.low ≤ min b.open_ b.close ∧ 0 ≤ b.volume) :
    (rolling_vwap bars).length = bars.length ∧
    ∀ (i : ℕ) (x : ℚ), (rolling_vwap bars)[i]? = some (some x) →
      ((bars.take (i + 1)).map Bar.low).minimum ≤ (x : WithTop ℚ) ∧
      (x : WithBot ℚ) ≤ ((bars.take (i + 1)).map Bar.high).maximum := by
  have hinv2 : ∀ b ∈ bars, b.low ≤ b.close ∧ b.close ≤ b.high ∧ 0 ≤ b.volume := by
    intro b hb
    obtain ⟨h1, h2, h3⟩ := hinv b hb
    exact ⟨le_trans h2 (min_le_right _ _), le_trans (le_max_right _ _) h1, h3⟩
  constructor
  · rw [rolling_vwap, List.length_map, List.length_range]
  · intro i x hx
    have hi : i < bars.length := by
      by_contra hlt
      have hnone : (rolling_vwap bars)[i]? = none := by
        apply List.getElem?_eq_none
        rw [rolling_vwap, List.length_map, List.length_range]
        omega
      rw [hnone] at hx
      cases hx
    have hvw : vwapAt bars i = some x := by
      rw [rolling_vwap, List.getElem?_map, List.getElem?_range hi] at hx
      simpa using hx
    obtain ⟨⟨b1, hb1, hl⟩, ⟨b2, hb2, hh⟩⟩ := vwapAt_bounds bars hinv2 i x hvw
    constructor
    · calc ((bars.take (i + 1)).map Bar.low).minimum
          ≤ (b1.low : WithTop ℚ) :=
            List.minimum_le_of_mem' (List.mem_map_of_mem Bar.low hb1)
        _ ≤ (x : WithTop ℚ) := by exact_mod_cast hl
    · calc (x : WithBot ℚ)
          ≤ (b2.high : WithBot ℚ) := by exact_mod_cast hh
        _ ≤ ((bars.take (i + 1)).map Bar.high).maximum :=
            List.le_maximum_of_mem' (List.mem_map_of_mem Bar.high hb2)

/-- One well-formed bar for the C5 witness: VWAP is `10`. -/
def w5bars : List Bar := [⟨⟨5, 9, 35⟩, 9, 11, 8, 10, 10⟩]

theorem claim_C5_witness :
    (rolling_vwap w5bars).length = w5bars.length ∧
    ((w5bars.take 1).map Bar.low).minimum ≤ ((10 : ℚ) : WithTop ℚ) := by
  have h := claim_C5 w5bars (by
    intro b hb
    simp only [w5bars, List.mem_singleton] at hb
    subst hb
    norm_num)
  refine ⟨h.1, ?_⟩
  exact (h.2 0 10 (by norm_num [rolling_vwap, vwapAt, vsum, pvsum, w5bars])).1

/-! ## Detector lemmas shared by the claims -/

theorem stepRow_ts (pm st : Option ℚ) (b : Bar) (vw : Option ℚ) (a : ℚ)
    (e : Event) (st2 : Option ℚ) (h : stepRow pm st b vw a = (some e, st2)) :
    e.ts = b.ts := by
  simp only [stepRow] at h
  repeat' split at h
  all_goals simp only [Prod.mk.injEq, Option.some.injEq] at h
  all_goals obtain ⟨h1, h2⟩ := h
  all_goals try subst h1
  all_goals try subst h2
  all_goals simp_all

theorem stepRow_entry_of_entered (pm st : Option ℚ) (b : Bar) (vw : Option ℚ)
    (a : ℚ) (e : Event) (p : ℚ) (h : stepRow pm st b vw a = (some e, some p)) :
    e.kind = .ENTRY := by
  simp only [stepRow] at h
  repeat' split at h
  all_goals simp only [Prod.mk.injEq, Option.some.injEq] at h
  all_goals obtain ⟨h1, h2⟩ := h
  all_goals try subst h1
  all_goals try subst h2
  all_goals simp_all

theorem stepRow_atr_state (pm st : Option ℚ) (b : Bar) (vw : Option ℚ) (a : ℚ)
    (e : Event) (st2 : Option ℚ) (h : stepRow pm st b vw a = (some e, st2))
    (hr : e.reason = .atr_stop) : st ≠ none := by
  simp only [stepRow] at h
  repeat' split at h
  all_goals simp only [Prod.mk.injEq, Option.some.injEq] at h
  all_goals obtain ⟨h1, h2⟩ := h
  all_goals try subst h1
  all_goals try subst h2
  all_goals simp_all

theorem stepRow_vw_none (pm st : Option ℚ) (b : Bar) (a : ℚ) (e : Event)
    (st2 : Option ℚ) (h : stepRow pm st b none a = (some e, st2)) :
    e.reason ≠ .vwap_reclaim ∧ e.reason ≠ .vwap_loss := by
  simp only [stepRow] at h
  repeat' split at h
  all_goals simp only [Prod.mk.injEq, Option.some.injEq] at h
  all_goals obtain ⟨h1, h2⟩ := h
  all_goals try subst h1
  all_goals try subst h2
  all_goals simp_all [gtOpt, ltOpt]

theorem stepRow_none_state (pm st : Option ℚ) (b : Bar) (vw : Option ℚ)
    (a : ℚ) (st2 : Option ℚ) (h : stepRow pm st b vw a = (none, st2)) :
    st2 = st := by
  simp only [stepRow] at h
  repeat' split at h
  all_goals simp only [Prod.mk.injEq, Option.some.injEq] at h
  all_goals obtain ⟨h1, h2⟩ := h
  all_goals try subst h1
  all_goals try subst h2
  all_goals simp_all

theorem runRows_length_le (pm : Option ℚ) :
    ∀ (rows : List (Bar × Option ℚ × ℚ)) (st : Option ℚ),
      (runRows pm st rows).length ≤ rows.length := by
  intro rows
  induction rows with
  | nil => intro st; simp [runRows]
  | cons r rest ih =>
    intro st
    rw [runRows]
    rcases hstep : stepRow pm st r.1 r.2.1 r.2.2 with ⟨ev, st2⟩
    cases ev with
    | none => simpa using Nat.le_succ_of_le (ih st2)
    | some ev0 => simpa using Nat.succ_le_succ (ih st2)

theorem runRows_mem (pm : Option ℚ) :
    ∀ (rows : List (Bar × Option ℚ × ℚ)) (st : Option ℚ) (e : Event),
      e ∈ runRows pm st rows →
      ∃ (j : ℕ) (r : Bar × Option ℚ × ℚ), rows[j]? = some r ∧
        ∃ st0 st1, stepRow pm st0 r.1 r.2.1 r.2.2 = (some e, st1) := by
  intro rows
  induction rows with
  | nil => intro st e he; simp [runRows] at he
  | cons r rest ih =>
    intro st e he
    rw [runRows] at he
    rcases hstep : stepRow pm st r.1 r.2.1 r.2.2 with ⟨ev, st2⟩
    rw [hstep] at he
    cases ev with
    | none =>
      simp only [Option.toList, List.nil_append] at he
      obtain ⟨j, r2, hj, st0, st1, hs⟩ := ih st2 e he
      exact ⟨j + 1, r2, by simpa using hj, st0, st1, hs⟩
    | some ev0 =>
      simp only [Option.toList, List.cons_append, List.nil_append] at he
      rcases List.mem_cons.1 he with h | h
      · exact ⟨0, r, by simp, st, st2, by rw [hstep, h]⟩
      · obtain ⟨j, r2, hj, st0, st1, hs⟩ := ih st2 e h
        exact ⟨j + 1, r2, by simpa using hj, st0, st1, hs⟩

theorem runRows_atr_stop_entry (pm : Option ℚ) :
    ∀ (rows : List (Bar × Option ℚ × ℚ)) (st : Option ℚ) (i : ℕ) (e : Event),
      (runRows pm st rows)[i]? = some e → e.reason = .atr_stop →
      (i = 0 ∧ st ≠ none) ∨
      (0 < i ∧ ∃ e2, (runRows pm st rows)[i - 1]? = some e2 ∧ e2.kind = .ENTRY) := by
  intro rows
  induction rows with
  | nil => intro st i e he _; simp [runRows] at he
  | cons r rest ih =>
    intro st i e he hr
    rw [runRows] at he ⊢
    rcases hstep : stepRow pm st r.1 r.2.1 r.2.2 with ⟨ev, st2⟩
    rw [hstep] at he
    cases ev with
    | none =>
      simp only [Option.toList, List.nil_append] at he ⊢
      rcases ih st2 i e he hr with ⟨hi0, hst⟩ | ⟨hipos, e2, he2, hk⟩
      · left
        refine ⟨hi0, ?_⟩
        rwa [stepRow_none_state pm st r.1 r.2.1 r.2.2 st2 hstep] at hst
      · right
        exact ⟨hipos, e2, he2, hk⟩
    | some ev0 =>
      simp only [Option.toList, List.cons_append, List.nil_append] at he ⊢
      cases i with
      | zero =>
        left
        refine ⟨rfl, ?_⟩
        have he0 : ev0 = e := by simpa using he
        exact stepRow_atr_state pm st r.1 r.2.1 r.2.2 e st2 (he0 ▸ hstep) hr
      | succ k =>
        have hek : (runRows pm st2 rest)[k]? = some e := by simpa using he
        rcases ih st2 k e hek hr with ⟨hk0, hst2⟩ | ⟨hkpos, e2, he2, hkind⟩
        · right
          refine ⟨Nat.succ_pos k, ev0, ?_, ?_⟩
          · subst hk0
            simp
          · rcases hst : st2 with _ | p
            · exact absurd hst hst2
            · exact stepRow_entry_of_entered pm st r.1 r.2.1 r.2.2 ev0 p
                (hst ▸ hstep)
        · right
          refine ⟨Nat.succ_pos k, e2, ?_, hkind⟩
          rcases k with _ | m
          · exact absurd hkpos (lt_irrefl 0)
          · simpa using he2

/-! ## Claim C3: rule priority and at most one event per bar -/

/-- C3: the detector emits at most one event per bar — the total event
count never exceeds the bar count — and the rules are checked in strict
priority order with the first match winning: whenever the
`break_premarket` condition holds, the per-bar step emits exactly the
`break_premarket` ENTRY, no matter whether `detect_long_wick` (or any
later rule) also holds on that bar. -/
theorem claim_C3 (bars : List Bar) (pm : Option ℚ)
    (hdup : List.Pairwise (fun x y => tsKey x.ts ≠ tsKey y.ts) bars) :
    (five_min_signals bars pm).length ≤ bars.length ∧
    (∀ (st : Option ℚ) (b : Bar) (vw : Option ℚ) (a p : ℚ),
      pm = some p → p < b.close → detect_long_wick b = true →
      stepRow pm st b vw a =
        (some ⟨b.ts, .ENTRY, .break_premarket, b.close⟩, some b.close)) := by
  constructor
  · simp only [five_min_signals]
    refine le_trans (runRows_length_le pm _ none) ?_
    rw [List.length_zip, List.length_zip, rolling_vwap, rolling_atr,
      List.length_map, List.length_range, List.length_map, List.length_range,
      List.length_insertionSort, min_self, min_self]
  · intro st b vw a p hpm hlt _
    have hg : gtOpt b.close pm = true := by
      rw [hpm]
      simp [gtOpt, hlt]
    simp only [stepRow, hg, if_true]

/-- Bar used to instantiate the C3 priority clause: close `10` breaks a
premarket high of `5` and simultaneously shows a long upper wick. -/
def w3bar : Bar := ⟨⟨5, 9, 45⟩, 10, 20, 9, 10, 0⟩

theorem claim_C3_witness :
    (five_min_signals w5bars (some 5)).length ≤ w5bars.length ∧
    stepRow (some 5) none w3bar (some 100) 1 =
      (some ⟨w3bar.ts, .ENTRY, .break_premarket, 10⟩, some 10) := by
  have h := claim_C3 w5bars (some 5) (by simp [w5bars])
  refine ⟨h.1, ?_⟩
  have h2 := h.2 none w3bar (some 100) 1 5 rfl (by norm_num [w3bar])
    (by norm_num [detect_long_wick, w3bar])
  simpa [w3bar] using h2

/-! ## Claim C4: exit rules and position state -/

/-- C4: the `vwap_loss` and `long_wick` rules emit an EXIT and reset the
position state to `Flat` (`none`) for *every* current state — so an EXIT
can be emitted with no preceding ENTRY — whereas every `atr_stop` EXIT
in the detector's output is immediately preceded by an ENTRY event (in
particular an ENTRY with no intervening EXIT occurs before it). -/
theorem claim_C4 :
    (∀ (pm st : Option ℚ) (b : Bar) (w a : ℚ),
      gtOpt b.close pm = false →
      (gtOpt b.close (some w) && decide (b.open_ < b.close)) = false →
      b.close < w →
      stepRow pm st b (some w) a = (some ⟨b.ts, .EXIT, .vwap_loss, b.close⟩, none)) ∧
    (∀ (pm st : Option ℚ) (b : Bar) (vw : Option ℚ) (a : ℚ),
      gtOpt b.close pm = false →
      (gtOpt b.close vw && decide (b.open_ < b.close)) = false →
      ltOpt b.close vw = false →
      detect_long_wick b = true →
      stepRow pm st b vw a = (some ⟨b.ts, .EXIT, .long_wick, b.close⟩, none)) ∧
    (∀ (bars : List Bar) (pm : Option ℚ) (i : ℕ) (e : Event),
      (five_min_signals bars pm)[i]? = some e → e.reason = .atr_stop →
      ∃ j < i, ∃ e2, (five_min_signals bars pm)[j]? = some e2 ∧
        e2.kind = .ENTRY ∧
        ∀ (k : ℕ) (e3 : Event), j < k → k < i →
          (five_min_signals bars pm)[k]? = some e3 → e3.kind ≠ .EXIT) := by
  refine ⟨?_, ?_, ?_⟩
  · intro pm st b w a h1 h2 h3
    have hlt : ltOpt b.close (some w) = true := by simp [ltOpt, h3]
    simp only [stepRow, h1, h2, hlt, if_true, Bool.false_eq_true, if_false]
  · intro pm st b vw a h1 h2 h3 h4
    simp only [stepRow, h1, h2, h3, h4, if_true, Bool.false_eq_true, if_false]
  · intro bars pm i e he hr
    simp only [five_min_signals] at he ⊢
    rcases runRows_atr_stop_entry pm _ none i e he hr with ⟨_, hst⟩ | ⟨hipos, e2, he2, hk⟩
    · exact absurd rfl hst
    · refine ⟨i - 1, by omega, e2, he2, hk, ?_⟩
      intro k e3 hjk hki _
      omega

/-- Bar for the C4 witness: close `9` is below a VWAP of `9.5` and the
bar is not bullish, so `vwap_loss` fires even from an `Entered 42`
state. -/
def w4bar : Bar := ⟨⟨5, 9, 50⟩, 10, 11, 9, 9, 1⟩

theorem claim_C4_witness :
    stepRow none (some 42) w4bar (some (19 / 2)) 1 =
      (some ⟨w4bar.ts, .EXIT, .vwap_loss, 9⟩, none) := by
  have h := claim_C4.1 none (some 42) w4bar (19 / 2) 1 (by rfl)
    (by norm_num [gtOpt, w4bar]) (by norm_num [w4bar])
  simpa [w4bar] using h

/-! ## Claims C9 and C10 -/

/-- Evaluation helper: on a one-bar input the detector reduces to a
single step from the `Flat` state. -/
theorem five_min_singleton (b : Bar) (pm : Option ℚ) :
    five_min_signals [b] pm =
      (stepRow pm none b (vwapAt [b] 0) (atrAt [b] 0)).1.toList := by
  simp only [five_min_signals]
  have hs : List.insertionSort barLe [b] = [b] := rfl
  rw [hs]
  have hv : rolling_vwap [b] = [vwapAt [b] 0] := by rw [rolling_vwap]; rfl
  have ha : rolling_atr [b] = [atrAt [b] 0] := by rw [rolling_atr]; rfl
  rw [hv, ha]
  show runRows pm none [(b, vwapAt [b] 0, atrAt [b] 0)] = _
  rw [runRows]
  rcases hstep : stepRow pm none b (vwapAt [b] 0) (atrAt [b] 0) with ⟨ev, st2⟩
  simp [runRows]

/-- A malformed bar: `low = 12` exceeds `min(open, close) = 10`,
violating the Bar invariant, yet with a long upper wick. -/
def mbar : Bar := ⟨⟨5, 9, 40⟩, 10, 20, 12, 10, 5⟩

/-- C9 counterexample: on a sequence violating the high/low invariant
the detector does not fail — it silently computes indicators and emits
a `long_wick` EXIT event. -/
theorem claim_C9_counterexample :
    ¬ (mbar.low ≤ min mbar.open_ mbar.close) ∧
    five_min_signals [mbar] none = [⟨mbar.ts, .EXIT, .long_wick, 10⟩] := by
  constructor
  · norm_num [mbar]
  · rw [five_min_singleton]
    have hv : vwapAt [mbar] 0 = some 10 := by norm_num [vwapAt, vsum, pvsum, mbar]
    rw [hv]
    have hstep : stepRow none none mbar (some 10) (atrAt [mbar] 0) =
        (some ⟨mbar.ts, .EXIT, .long_wick, 10⟩, none) := by
      norm_num [stepRow, gtOpt, ltOpt, detect_long_wick, mbar]
    rw [hstep]
    rfl

/-- C9, amended: the Signal Detector performs no validation.  It
processes out-of-order input exactly as if it had been given the
timestamp-sorted sequence (its first step is `sort_index()`), and —
per the counterexample — processes invariant-violating bars silently;
no error is surfaced to the caller. -/
theorem claim_C9 (bars : List Bar) (pm : Option ℚ)
    (hdup : List.Pairwise (fun x y => tsKey x.ts ≠ tsKey y.ts) bars) :
    five_min_signals bars pm =
      five_min_signals (List.insertionSort barLe bars) pm := by
  simp only [five_min_signals]
  rw [List.Sorted.insertionSort_eq (List.sorted_insertionSort barLe bars)]

/-- Two out-of-order bars with distinct timestamps. -/
def oooBars : List Bar :=
  [ ⟨⟨5, 9, 40⟩, 10, 20, 12, 10, 0⟩,
    ⟨⟨5, 9, 35⟩, 11, 21, 13, 11, 0⟩ ]

theorem claim_C9_witness :
    five_min_signals oooBars none =
      five_min_signals (List.insertionSort barLe oooBars) none :=
  claim_C9 oooBars none (by decide)

/-! ### Claim C10: undefined VWAP suppresses the VWAP rules -/

theorem vsum_nonneg (bars : List Bar) (hvol : ∀ b ∈ bars, 0 ≤ b.volume)
    (i : ℕ) : 0 ≤ vsum bars i := by
  apply List.sum_nonneg
  intro x hx
  obtain ⟨b, hb, rfl⟩ := List.mem_map.1 hx
  exact hvol b (List.mem_of_mem_take hb)

theorem vsum_le_vsum (bars : List Bar) (hvol : ∀ b ∈ bars, 0 ≤ b.volume)
    (m n : ℕ) (hmn : m ≤ n) : vsum bars m ≤ vsum bars n := by
  rw [vsum, vsum]
  have h1 : (bars.take (n + 1)).take (m + 1) = bars.take (m + 1) := by
    rw [List.take_take]
    congr 1
    omega
  have h2 := List.take_append_drop (m + 1) (bars.take (n + 1))
  rw [← h2, h1, List.map_append, List.sum_append]
  have h3 : 0 ≤ (((bars.take (n + 1)).drop (m + 1)).map Bar.volume).sum := by
    apply List.sum_nonneg
    intro x hx
    obtain ⟨b, hb, rfl⟩ := List.mem_map.1 hx
    exact hvol b (List.mem_of_mem_take (List.mem_of_mem_drop hb))
  linarith

theorem vwapAt_none (bars : List Bar) (hvol : ∀ b ∈ bars, 0 ≤ b.volume) :
    ∀ i, vsum bars i = 0 → vwapAt bars i = none := by
  intro i
  induction i with
  | zero => intro h; rw [vwapAt, if_pos h]
  | succ k ih =>
    intro h
    rw [vwapAt, if_pos h]
    apply ih
    have h1 : 0 ≤ vsum bars k := vsum_nonneg bars hvol k
    have h2 : vsum bars k ≤ vsum bars (k + 1) :=
      vsum_le_vsum bars hvol k (k + 1) (by omega)
    linarith

/-- C10: at a bar where the cumulative volume of the (sorted) sequence
is still zero, the VWAP is undefined (`NaN` in the source), both VWAP
comparisons are false, and the detector emits neither a `vwap_reclaim`
ENTRY nor a `vwap_loss` EXIT for that bar. -/
theorem claim_C10 (bars : List Bar) (pm : Option ℚ) (i : ℕ)
    (hi : i < bars.length)
    (hsort : List.Pairwise (fun x y => tsKey x.ts < tsKey y.ts) bars)
    (hvol : ∀ b ∈ bars, 0 ≤ b.volume)
    (hcum : vsum bars i = 0) :
    ∀ e ∈ five_min_signals bars pm, e.ts = bars[i].ts →
      e.reason ≠ .vwap_reclaim ∧ e.reason ≠ .vwap_loss := by
  intro e he hts
  have hsorted : List.Sorted barLe bars := hsort.imp (fun h => le_of_lt h)
  have hfms : five_min_signals bars pm =
      runRows pm none (bars.zip ((rolling_vwap bars).zip (rolling_atr bars))) := by
    simp only [five_min_signals]
    rw [List.Sorted.insertionSort_eq hsorted]
  rw [hfms] at he
  obtain ⟨j, r, hj, st0, st1, hstep⟩ := runRows_mem pm _ none e he
  obtain ⟨hb, hrest⟩ := List.getElem?_zip_eq_some.1 hj
  obtain ⟨hvw, hat⟩ := List.getElem?_zip_eq_some.1 hrest
  obtain ⟨hjlen, hbj⟩ := List.getElem?_eq_some.1 hb
  have hets : e.ts = r.1.ts := stepRow_ts pm st0 r.1 r.2.1 r.2.2 e st1 hstep
  have hkey : tsKey (bars.get ⟨j, hjlen⟩).ts = tsKey (bars.get ⟨i, hi⟩).ts := by
    rw [List.get_eq_getElem, List.get_eq_getElem, hbj, ← hets, hts]
  have hij : j = i := by
    by_contra hne
    rcases Nat.lt_or_ge j i with hlt | hge
    · have := List.pairwise_iff_get.1 hsort ⟨j, hjlen⟩ ⟨i, hi⟩ hlt
      omega
    · have hgt : i < j := by omega
      have := List.pairwise_iff_get.1 hsort ⟨i, hi⟩ ⟨j, hjlen⟩ hgt
      omega
  subst hij
  have hvw2 : (rolling_vwap bars)[j]? = some (vwapAt bars j) := by
    rw [rolling_vwap, List.getElem?_map, List.getElem?_range hjlen]
    rfl
  have heq : vwapAt bars j = r.2.1 := by
    rw [hvw2] at hvw
    exact Option.some.inj hvw
  have hnone : r.2.1 = none := by
    rw [← heq]
    exact vwapAt_none bars hvol j hcum
  rw [hnone] at hstep
  exact stepRow_vw_none pm st0 r.1 r.2.2 e st1 hstep

/-- A zero-volume premarket-style bar: cumulative volume is `0`, so
VWAP is undefined; its long upper wick triggers the `long_wick` rule
(the evaluation "falls through" the two VWAP rules). -/
def wbar10 : Bar := ⟨⟨5, 9, 31⟩, 10, 20, 9, 10, 0⟩

theorem claim_C10_witness :
    (⟨⟨5, 9, 31⟩, .EXIT, .long_wick, 10⟩ : Event).reason ≠ .vwap_reclaim ∧
    (⟨⟨5, 9, 31⟩, .EXIT, .long_wick, 10⟩ : Event).reason ≠ .vwap_loss := by
  have hv : vwapAt [wbar10] 0 = none := by norm_num [vwapAt, vsum, wbar10]
  have hstep : stepRow none none wbar10 (vwapAt [wbar10] 0) (atrAt [wbar10] 0) =
      (some ⟨wbar10.ts, .EXIT, .long_wick, 10⟩, none) := by
    rw [hv]
    norm_num [stepRow, gtOpt, ltOpt, detect_long_wick, wbar10]
  have hmem : (⟨⟨5, 9, 31⟩, .EXIT, .long_wick, 10⟩ : Event) ∈
      five_min_signals [wbar10] none := by
    rw [five_min_singleton, hstep]
    simp [wbar10]
  exact claim_C10 [wbar10] none 0 (by decide) (by decide)
    (by intro b hb; simp only [List.mem_singleton] at hb; subst hb; norm_num [wbar10])
    (by norm_num [vsum, wbar10]) _ hmem (by rfl)

/-! ## Claim C2: error handling of the replay driver -/

theorem replayPhase_ok (intra : Ticker → Except Err (List Bar)) (target : ℕ)
    (hintra : ∀ t, ∃ l, intra t = .ok l) :
    ∀ sel, ∃ out, replayPhase intra target sel = .ok out := by
  intro sel
  induction sel with
  | nil => exact ⟨[], rfl⟩
  | cons g rest ih =>
    obtain ⟨l, hl⟩ := hintra g.ticker
    obtain ⟨out, hout⟩ := ih
    rw [replayPhase, hl]
    dsimp only
    by_cases h1 : l.isEmpty = true
    · rw [if_pos h1]
      exact ⟨out, hout⟩
    · rw [if_neg h1]
      by_cases h2 : (filter_bars_for_date l target).isEmpty = true
      · rw [if_pos h2]
        exact ⟨out, hout⟩
      · rw [if_neg h2, hout]
        exact ⟨_, rfl⟩

/-- C2, amended: in the gap-ranking phase every per-symbol exception is
caught and the symbol is merely skipped (an erroring ticker contributes
nothing and the phase never fails), but in the per-symbol intraday
replay phase exceptions are *not* caught: as long as every intraday
fetch succeeds the whole run succeeds — regardless of how many daily
fetches raise — while a failing intraday fetch aborts the run (see the
counterexample). -/
theorem claim_C2 :
    (∀ (daily : Ticker → Except Err (List DRow)) (t : Ticker) (er : Err)
      (tickers : List Ticker) (target : ℕ),
      daily t = .error er →
      gapPhase daily (t :: tickers) target = gapPhase daily tickers target) ∧
    (∀ (daily : Ticker → Except Err (List DRow))
      (intra : Ticker → Except Err (List Bar)) (tickers : List Ticker)
      (thr : ℚ) (n : ℕ) (target : ℕ),
      (∀ t, ∃ l, intra t = .ok l) →
      ∃ out, run_replay_for_date daily intra tickers thr n target = .ok out) := by
  constructor
  · intro daily t er tickers target hdaily
    simp [gapPhase, List.filterMap_cons, hdaily]
  · intro daily intra tickers thr n target hintra
    obtain ⟨out, hout⟩ :=
      replayPhase_ok intra target hintra (selectTop (gapPhase daily tickers target) thr n)
    exact ⟨out, by simp only [run_replay_for_date]; exact hout⟩

/-- Daily-bar source for the C2 scenario: tickers `0` and `1` gap up
`10%` and `5%` on date `5`; every other ticker's fetch raises. -/
def dailyF : Ticker → Except Err (List DRow) := fun t =>
  if t = 0 then .ok [⟨4, 99, 100⟩, ⟨5, 110, 111⟩]
  else if t = 1 then .ok [⟨4, 99, 100⟩, ⟨5, 105, 106⟩]
  else .error 3

/-- Intraday source whose fetch raises for ticker `0` (the top gapper)
and succeeds for every other ticker. -/
def intraFail : Ticker → Except Err (List Bar) := fun t =>
  if t = 0 then .error 7 else .ok [⟨⟨5, 9, 40⟩, 10, 11, 9, 9, 1⟩]

/-- Intraday source that always succeeds. -/
def intraOk : Ticker → Except Err (List Bar) := fun _ =>
  .ok [⟨⟨5, 9, 40⟩, 10, 11, 9, 9, 1⟩]

theorem gapPhase_dailyF :
    gapPhase dailyF [0, 1, 2] 5 = [⟨0, 10, 100, 110⟩, ⟨1, 5, 100, 105⟩] := by
  have hf0 : List.findIdx? (fun r => decide (r.date = (5 : ℕ)))
      [(⟨4, 99, 100⟩ : DRow), ⟨5, 110, 111⟩] = some 1 := by decide
  have hf1 : List.findIdx? (fun r => decide (r.date = (5 : ℕ)))
      [(⟨4, 99, 100⟩ : DRow), ⟨5, 105, 106⟩] = some 1 := by decide
  have hg0 : gapFor [⟨4, 99, 100⟩, ⟨5, 110, 111⟩] 5 0 = some ⟨0, 10, 100, 110⟩ := by
    simp only [gapFor, hf0]
    norm_num [gap_pct]
  have hg1 : gapFor [⟨4, 99, 100⟩, ⟨5, 105, 106⟩] 5 1 = some ⟨1, 5, 100, 105⟩ := by
    simp only [gapFor, hf1]
    norm_num [gap_pct]
  simp only [gapPhase, dailyF, List.filterMap_cons, List.filterMap_nil]
  norm_num [hg0, hg1]

theorem selectTop_dailyF :
    selectTop [⟨0, 10, 100, 110⟩, ⟨1, 5, 100, 105⟩] 0 2 =
      [(⟨0, 10, 100, 110⟩ : GapRow), ⟨1, 5, 100, 105⟩] := by
  simp only [selectTop, List.filter, List.insertionSort, List.orderedInsert]
  norm_num [gapGe]

/-- C2 counterexample: with the top two gappers selected, the intraday
fetch exception for the first symbol is *not* caught: the whole replay
run evaluates to that error, and the second symbol — whose intraday
fetch succeeds with nonempty data — is never replayed. -/
theorem claim_C2_counterexample :
    intraFail 0 = .error 7 ∧
    (∃ l, intraFail 1 = .ok l ∧ l ≠ []) ∧
    run_replay_for_date dailyF intraFail [0, 1, 2] 0 2 5 = .error 7 := by
  refine ⟨rfl, ⟨_, rfl, by simp⟩, ?_⟩
  simp only [run_replay_for_date, gapPhase_dailyF, selectTop_dailyF]
  rw [replayPhase]
  norm_num [intraFail]

theorem claim_C2_witness :
    ∃ out, run_replay_for_date dailyF intraOk [0, 1, 2] 0 2 5 = .ok out :=
  claim_C2.2 dailyF intraOk [0, 1, 2] 0 2 5
    (fun _ => ⟨[⟨⟨5, 9, 40⟩, 10, 11, 9, 9, 1⟩], rfl⟩)

/-! ## Claim C8: gap percent and top-N selection -/

theorem succ_le_countP {α : Type} (p : α → Bool) :
    ∀ (l : List α) (i : ℕ), i < l.length →
      (∀ (j : ℕ) (hj : j < l.length), j ≤ i → p (l.get ⟨j, hj⟩) = true) →
      i + 1 ≤ l.countP p := by
  intro l
  induction l with
  | nil => intro i hi _; simp at hi
  | cons a t ih =>
    intro i hi hall
    have hpa : p a = true := hall 0 (by simp) (Nat.zero_le i)
    rw [List.countP_cons, hpa, if_pos rfl]
    cases i with
    | zero => omega
    | succ k =>
      have hk : k < t.length := by
        simp only [List.length_cons] at hi
        omega
      have hforall : ∀ (j : ℕ) (hj : j < t.length), j ≤ k →
          p (t.get ⟨j, hj⟩) = true := by
        intro j hj hjk
        have h3 := hall (j + 1) (by simp only [List.length_cons]; omega) (by omega)
        simpa using h3
      have h2 := ih k hk hforall
      omega

/-- C8: the driver computes
`gap_pct = (open_today − prev_close) / prev_close × 100` (so
`prev_close = 100`, `open = 110` gives `10`), for every symbol whose
daily history contains the target date at an index with a predecessor;
and retention is exactly "meets the threshold and ranks in the top `N`
by gap percent descending":
* (only if) every retained row meets the threshold and came from the
  input, at most `N` rows are retained, and any non-retained row
  meeting the threshold has gap percent at most that of every retained
  row;
* the selection is as large as possible — its length is
  `min N (number of rows meeting the threshold)` — so nothing that fits
  within the top `N` is dropped;
* (if) every input row meeting the threshold whose tie-inclusive rank
  fits within `N` — i.e. at most `N` threshold-passing rows have gap
  percent `≥` its own — is retained. -/
theorem claim_C8 (results : List GapRow) (thr : ℚ) (n : ℕ) :
    gap_pct 100 110 = 10 ∧
    (∀ (hist : List DRow) (target : ℕ) (t : Ticker) (m : ℕ) (prev cur : DRow),
      hist.findIdx? (fun r => decide (r.date = target)) = some (m + 1) →
      hist[m]? = some prev → hist[m + 1]? = some cur →
      gapFor hist target t =
        some ⟨t, gap_pct prev.close cur.open_, prev.close, cur.open_⟩) ∧
    (∀ r ∈ selectTop results thr n, thr ≤ r.gap ∧ r ∈ results) ∧
    (selectTop results thr n).length ≤ n ∧
    (∀ r ∈ selectTop results thr n, ∀ s ∈ results, thr ≤ s.gap →
      s ∉ selectTop results thr n → s.gap ≤ r.gap) ∧
    (selectTop results thr n).length =
      min n (results.filter (fun r => decide (thr ≤ r.gap))).length ∧
    (∀ s ∈ results, thr ≤ s.gap →
      (results.filter (fun r => decide (thr ≤ r.gap))).countP
          (fun r => decide (s.gap ≤ r.gap)) ≤ n →
      s ∈ selectTop results thr n) := by
  refine ⟨by norm_num [gap_pct], ?_, ?_, ?_, ?_, ?_, ?_⟩
  · intro hist target t m prev cur hfind hprev hcur
    simp only [gapFor, hfind, hprev, hcur]
  · intro r hr
    have hr2 : r ∈ List.insertionSort gapGe
        (results.filter (fun x => decide (thr ≤ x.gap))) := List.mem_of_mem_take hr
    have hr3 := (List.mem_insertionSort gapGe).1 hr2
    obtain ⟨hmem, hdec⟩ := List.mem_filter.1 hr3
    exact ⟨of_decide_eq_true hdec, hmem⟩
  · exact List.length_take_le n _
  · intro r hr s hs hthr hns
    have hsorted : List.Sorted gapGe
        (List.insertionSort gapGe (results.filter (fun x => decide (thr ≤ x.gap)))) :=
      List.sorted_insertionSort gapGe _
    set L := List.insertionSort gapGe (results.filter (fun x => decide (thr ≤ x.gap)))
      with hLdef
    have hsplit : L.take n ++ L.drop n = L := List.take_append_drop n L
    have hp : List.Pairwise gapGe (L.take n ++ L.drop n) := by
      rw [hsplit]
      exact hsorted
    obtain ⟨_, _, hcross⟩ := List.pairwise_append.1 hp
    have hsL : s ∈ L := (List.mem_insertionSort gapGe).2
      (List.mem_filter.2 ⟨hs, decide_eq_true hthr⟩)
    have hsL2 : s ∈ L.take n ++ L.drop n := by rw [hsplit]; exact hsL
    rcases List.mem_append.1 hsL2 with hcase | hcase
    · exact absurd hcase hns
    · exact hcross r hr s hcase
  · rw [selectTop, List.length_take, List.length_insertionSort]
  · intro s hs hthr hcnt
    have hsorted : List.Sorted gapGe
        (List.insertionSort gapGe (results.filter (fun r => decide (thr ≤ r.gap)))) :=
      List.sorted_insertionSort gapGe _
    set L := List.insertionSort gapGe (results.filter (fun r => decide (thr ≤ r.gap)))
      with hLdef
    have hsf : s ∈ results.filter (fun r => decide (thr ≤ r.gap)) :=
      List.mem_filter.2 ⟨hs, decide_eq_true hthr⟩
    have hsL : s ∈ L := (List.mem_insertionSort gapGe).2 hsf
    obtain ⟨⟨i, hi⟩, hgi⟩ := List.mem_iff_get.1 hsL
    have hall : ∀ (j : ℕ) (hj : j < L.length), j ≤ i →
        (fun r => decide (s.gap ≤ r.gap)) (L.get ⟨j, hj⟩) = true := by
      intro j hj hji
      apply decide_eq_true
      rcases Nat.lt_or_ge j i with hlt | hge
      · have hp := List.pairwise_iff_get.1 hsorted ⟨j, hj⟩ ⟨i, hi⟩ hlt
        rw [hgi] at hp
        exact hp
      · have hj_eq : j = i := le_antisymm hji hge
        subst hj_eq
        have hgj : L.get ⟨j, hj⟩ = s := hgi
        rw [hgj]
    have hcntL : i + 1 ≤ L.countP (fun r => decide (s.gap ≤ r.gap)) :=
      succ_le_countP _ L i hi hall
    have hperm : L.countP (fun r => decide (s.gap ≤ r.gap)) =
        (results.filter (fun r => decide (thr ≤ r.gap))).countP
          (fun r => decide (s.gap ≤ r.gap)) :=
      List.Perm.countP_eq _ (List.perm_insertionSort gapGe _)
    have hin : i < n := by omega
    have hget : (L.take n).get? i = some s := by
      rw [List.get?_take hin, List.get?_eq_some]
      exact ⟨hi, hgi⟩
    have hmem : s ∈ L.take n := List.get?_mem hget
    exact hmem

/-- Ranking rows for the C8 witness: gaps `10`, `5` and `−3`. -/
def w8results : List GapRow :=
  [⟨0, 10, 100, 110⟩, ⟨1, 5, 100, 105⟩, ⟨2, -3, 100, 97⟩]

theorem claim_C8_witness :
    gap_pct 100 110 = 10 ∧
    (⟨0, 10, 100, 110⟩ : GapRow) ∈ selectTop w8results 0 1 ∧
    (selectTop w8results 0 1).length = 1 := by
  have h := claim_C8 w8results 0 1
  refine ⟨h.1, ?_, ?_⟩
  · apply h.2.2.2.2.2.2 ⟨0, 10, 100, 110⟩ (by simp [w8results]) (by norm_num)
    norm_num [w8results, List.filter_cons, List.filter_nil,
      List.countP_cons, List.countP_nil]
  · rw [h.2.2.2.2.2.1]
    norm_num [w8results, List.filter_cons, List.filter_nil]

end ReplayRunner
